import Mathlib

/-!
Verification of the BB84 simulation engine and crypto utilities of
`quantum-duo` (`src/bb84.py`, `src/crypto_utils.py`).

Shallow embedding conventions:

* Machine floats for probabilities and QBER are modelled as `ℚ`.
* The two external pseudo-random sources of the session engine
  (`np.random.default_rng(seed)` and `AerSimulator(seed_simulator=seed)`)
  are modelled as abstract entropy streams `Nat → Nat`, threaded with
  explicit positions.  Every property proved below is independent of the
  particular stream; a concrete linear-congruential stream `lcgStream`
  seeds the executable entry points so that witnesses can be evaluated.
* The single-qubit circuits of `_prepare_state` / `_measure_in_basis`
  are embedded by their exact semantics: a prepared carrier is a pair
  (bit, basis-family); measuring in the same family deterministically
  returns the prepared bit, measuring in the complementary family
  returns a fresh uniformly drawn bit from the simulator stream.  An
  `X` gate flips the computational bit of a `Z`-family carrier and is a
  global phase (no observable effect) on an `X`-family carrier.
* Python byte strings are `List Nat` (each entry a byte value);
  exceptions are `Except String`.
-/

namespace QuantumDuo

/-- The two BB84 preparation/measurement families, `'Z'` and `'X'`. -/
inductive QBasis where
  | Z : QBasis
  | X : QBasis
deriving DecidableEq, Repr

/-- The state of a single-qubit carrier circuit produced by
`_prepare_state` (`src/bb84.py` lines 8-19): one of |0⟩, |1⟩, |+⟩, |−⟩,
recorded as a computational bit together with its basis family. -/
structure Carrier where
  bit : Nat
  basis : QBasis
deriving DecidableEq, Repr

/-- The pair of seeded random sources live in `_bb84_single` /
`bb84_walkthrough`: the numpy generator `rng` and the Aer simulator
`sim`, each an abstract stream with a current position. -/
structure PrngPair where
  rng : Nat → Nat
  rpos : Nat
  sim : Nat → Nat
  spos : Nat

/-- Consume one value from the numpy generator stream. -/
def rngDraw (s : PrngPair) : Nat × PrngPair :=
  (s.rng s.rpos, { s with rpos := s.rpos + 1 })

/-- Consume one value from the simulator stream. -/
def simDraw (s : PrngPair) : Nat × PrngPair :=
  (s.sim s.spos, { s with spos := s.spos + 1 })

/-- One draw of `rng.integers(0, 2)`: a uniform bit. -/
def drawBit (s : PrngPair) : Nat × PrngPair :=
  let (v, s1) := rngDraw s
  (v % 2, s1)

/-- One draw of `rng.choice(['Z','X'])`: a uniform basis label. -/
def drawBasis (s : PrngPair) : String × PrngPair :=
  let (v, s1) := rngDraw s
  (if v % 2 = 0 then "Z" else "X", s1)

/-- Interpretation of a raw stream value as `rng.random()`, a rational
in the unit interval [0, 1) with the 53-bit resolution of the source's
double-precision draws. -/
def unitOf (v : Nat) : ℚ :=
  mkRat ((v % 2 ^ 53 : Nat) : Int) (2 ^ 53)

/-- One draw of `rng.random()`. -/
def drawUnit (s : PrngPair) : ℚ × PrngPair :=
  let (v, s1) := rngDraw s
  (unitOf v, s1)

/-- The vectorised draw `rng.integers(0, 2, size=n)` of `alice_bits`. -/
def drawBits : Nat → PrngPair → List Nat × PrngPair
  | 0, s => ([], s)
  | n + 1, s =>
    let (b, s1) := drawBit s
    let (rest, s2) := drawBits n s1
    (b :: rest, s2)

/-- The vectorised draw `rng.choice(['Z','X'], size=n)` of a basis list. -/
def drawBases : Nat → PrngPair → List String × PrngPair
  | 0, s => ([], s)
  | n + 1, s =>
    let (b, s1) := drawBasis s
    let (rest, s2) := drawBases n s1
    (b :: rest, s2)

/-- `_prepare_state(bit, basis)` (`src/bb84.py` lines 8-19): builds the
carrier |bit⟩ for basis `'Z'`, the carrier H·Z^bit|0⟩ = |±⟩ for basis
`'X'`, and raises `ValueError` on any other label. -/
def prepare_state (bit : Nat) (basis : String) : Except String Carrier :=
  if basis = "Z" then .ok ⟨bit, QBasis.Z⟩
  else if basis = "X" then .ok ⟨bit, QBasis.X⟩
  else .error "basis must be Z or X"

/-- `_measure_in_basis(qc, basis, sim)` (`src/bb84.py` lines 21-27):
applies `H` exactly when the label is `'X'` and measures in the
computational basis, consuming one shot of simulator randomness.  When
the effective measurement family equals the carrier family the outcome
is the prepared bit; otherwise it is a uniform bit from the simulator. -/
def measure_in_basis (c : Carrier) (basis : String) (s : PrngPair) :
    Nat × PrngPair :=
  let (v, s1) := simDraw s
  if basis = "X" then
    (if c.basis = QBasis.X then c.bit else v % 2, s1)
  else
    (if c.basis = QBasis.X then v % 2 else c.bit, s1)

/-- The noise action `qc.x(0)` (`src/bb84.py` line 43): an `X` gate
flips the bit of a `Z`-family carrier; on |±⟩ it only introduces a
global phase, so the carrier is unchanged. -/
def xGate (c : Carrier) : Carrier :=
  match c.basis with
  | QBasis.Z => ⟨(c.bit + 1) % 2, QBasis.Z⟩
  | QBasis.X => c

/-- The eavesdropper of lines 38-41 of `src/bb84.py`, given the draw
`r1` of `rng.random()`: when `r1 < p_eve`, draw Eve's basis, measure
the carrier in it and re-prepare a fresh carrier from the observed bit;
otherwise pass the carrier through untouched. -/
def eveStep (p_eve : ℚ) (qc0 : Carrier) (r1 : ℚ) (s1 : PrngPair) :
    Except String (Carrier × PrngPair) :=
  if r1 < p_eve then
    let (eb, sa) := drawBasis s1
    let (ebit, sb) := measure_in_basis qc0 eb sa
    match prepare_state ebit eb with
    | .error e => .error e
    | .ok qc1 => .ok (qc1, sb)
  else .ok (qc0, s1)

/-- The noise channel of lines 42-43 of `src/bb84.py`: when
`p_noise > 0`, draw `rng.random()` and apply the `X` gate if the draw
is below `p_noise`; when `p_noise` is not positive the draw is not even
consumed, matching the short-circuit conjunction in the source. -/
def noiseStep (p_noise : ℚ) (qc1 : Carrier) (s2 : PrngPair) :
    Carrier × PrngPair :=
  if 0 < p_noise then
    let (r2, sa) := drawUnit s2
    (if r2 < p_noise then xGate qc1 else qc1, sa)
  else (qc1, s2)

/-- One transmission of the per-index loop shared verbatim by
`_bb84_single` (lines 36-44) and `bb84_walkthrough` (lines 136-144):
prepare Alice's carrier, apply the eavesdropper, apply the noise
channel, then measure with Bob's basis.  Returns Bob's bit. -/
def transStep (p_eve p_noise : ℚ) (ab : Nat) (aB bB : String)
    (s : PrngPair) : Except String (Nat × PrngPair) :=
  match prepare_state ab aB with
  | .error e => .error e
  | .ok qc0 =>
    let (r1, s1) := drawUnit s
    match eveStep p_eve qc0 r1 s1 with
    | .error e => .error e
    | .ok (qc1, s2) =>
      let (qc2, s3) := noiseStep p_noise qc1 s2
      .ok (measure_in_basis qc2 bB s3)

/-- The sifting loop of `_bb84_single` (`src/bb84.py` lines 36-47) over
the per-index triples `(alice_bit, alice_basis, bob_basis)`: runs
`transStep` for every index and keeps `(alice_bit, bob_bit)` exactly
when the two bases match.  Returns the sifted lists and final state. -/
def siftLoop (p_eve p_noise : ℚ) :
    List (Nat × String × String) → PrngPair →
    Except String (List Nat × List Nat × PrngPair)
  | [], s => .ok ([], [], s)
  | (ab, aB, bB) :: rest, s =>
    match transStep p_eve p_noise ab aB bB s with
    | .error e => .error e
    | .ok (bobBit, s4) =>
      match siftLoop p_eve p_noise rest s4 with
      | .error e => .error e
      | .ok (ra, rb, s5) =>
        if aB = bB then .ok (ab :: ra, bobBit :: rb, s5)
        else .ok (ra, rb, s5)

/-- Number of sifted positions where Alice's and Bob's bits differ:
`np.mean(a != b)`'s numerator. -/
def countMismatch (a b : List Nat) : Nat :=
  ((a.zip b).filter (fun p => decide (p.1 ≠ p.2))).length

/-- The result dict of `_bb84_single` (`src/bb84.py` lines 48-54):
`{"qber": ..., "key_bits": ..., "kept": ...}`, with the absent QBER of
a degenerate session as `none`. -/
structure SessionResult where
  qber : Option ℚ
  key_bits : List Nat
  kept : Nat
deriving DecidableEq, Repr

/-- Lines 48-54 of `src/bb84.py`: package the sifted lists into the
session result, reporting `qber = none` when nothing was kept and the
exact mismatch fraction otherwise. -/
def mkSessionResult (sa sb : List Nat) : SessionResult :=
  if sa.length = 0 then ⟨none, [], 0⟩
  else ⟨some (mkRat (countMismatch sa sb) sa.length), sa, sa.length⟩

/-- Lines 30-34 of `src/bb84.py`: seed the generators and make the
three vectorised draws `alice_bits`, `alice_bases`, `bob_bases`,
returning them with the post-draw generator state. -/
def bb84_draws (rngf simf : Nat → Nat) (n : Nat) :
    (List Nat × List String × List String) × PrngPair :=
  let s0 : PrngPair := ⟨rngf, 0, simf, 0⟩
  let d1 := drawBits n s0
  let d2 := drawBases n d1.2
  let d3 := drawBases n d2.2
  ((d1.1, d2.1, d3.1), d3.2)

/-- The per-index triples `(alice_bits[i], alice_bases[i],
bob_bases[i])` the transmission loop iterates over. -/
def bb84_triples (rngf simf : Nat → Nat) (n : Nat) :
    List (Nat × String × String) :=
  (bb84_draws rngf simf n).1.1.zip
    ((bb84_draws rngf simf n).1.2.1.zip (bb84_draws rngf simf n).1.2.2)

/-- Lines 30-47 of `src/bb84.py`: the draws followed by the sifting
loop, producing the sifted Alice and Bob bit lists of the session. -/
def bb84_sift (rngf simf : Nat → Nat) (n : Nat) (p_eve p_noise : ℚ) :
    Except String (List Nat × List Nat) :=
  match siftLoop p_eve p_noise (bb84_triples rngf simf n)
      (bb84_draws rngf simf n).2 with
  | .error e => .error e
  | .ok (sa, sb, _) => .ok (sa, sb)

/-- `_bb84_single(n, p_eve, p_noise, seed)` (`src/bb84.py` lines 29-54)
over explicit entropy streams: the sifting phase followed by the
result packaging of lines 48-54. -/
def bb84_core (rngf simf : Nat → Nat) (n : Nat) (p_eve p_noise : ℚ) :
    Except String SessionResult :=
  match bb84_sift rngf simf n p_eve p_noise with
  | .error e => .error e
  | .ok (sa, sb) => .ok (mkSessionResult sa sb)

/-- A concrete deterministic stream standing in for the seeded external
generators: a linear-congruential sequence of the seed.  Only used to
give the seeded entry points something executable; no theorem below
depends on its particular values. -/
def lcgStream (seed : Nat) : Nat → Nat :=
  fun k => (1103515245 * (seed + k) + 12345) % 2 ^ 31

/-- The seeded session engine `_bb84_single`: a pure function of
`(n, p_eve, p_noise, seed)`, both generators seeded from `seed` as in
lines 30-31 of `src/bb84.py`. -/
def bb84_single (n : Nat) (p_eve p_noise : ℚ) (seed : Nat) :
    Except String SessionResult :=
  bb84_core (lcgStream seed) (lcgStream seed) n p_eve p_noise

/-- The walkthrough loop of `bb84_walkthrough` (`src/bb84.py` lines
136-148): identical per-index body (`transStep`), but additionally
records every Bob bit and the keep flag of every index, alongside the
same sifted lists. -/
def walkLoop (p_eve p_noise : ℚ) :
    List (Nat × String × String) → PrngPair →
    Except String (List Nat × List Nat × List Nat × List Nat × PrngPair)
  | [], s => .ok ([], [], [], [], s)
  | (ab, aB, bB) :: rest, s =>
    match transStep p_eve p_noise ab aB bB s with
    | .error e => .error e
    | .ok (bobBit, s4) =>
      match walkLoop p_eve p_noise rest s4 with
      | .error e => .error e
      | .ok (bobs, keeps, ra, rb, s5) =>
        if aB = bB then
          .ok (bobBit :: bobs, 1 :: keeps, ab :: ra, bobBit :: rb, s5)
        else
          .ok (bobBit :: bobs, 0 :: keeps, ra, rb, s5)

/-- The result dict of `bb84_walkthrough` (`src/bb84.py` lines 154-161). -/
structure WalkResult where
  alice_bits : List Nat
  alice_bases : List String
  bob_bases : List String
  bob_bits : List Nat
  keep : List Nat
  qber : Option ℚ
deriving DecidableEq, Repr

/-- `bb84_walkthrough(n, p_eve, p_noise, seed)` (`src/bb84.py` lines
127-161) over explicit entropy streams: the same three vectorised draws
as `_bb84_single`, the walkthrough loop, and the same QBER rule on the
sifted lists. -/
def bb84_walkthrough_core (rngf simf : Nat → Nat) (n : Nat)
    (p_eve p_noise : ℚ) : Except String WalkResult :=
  match walkLoop p_eve p_noise (bb84_triples rngf simf n)
      (bb84_draws rngf simf n).2 with
  | .error e => .error e
  | .ok (bobs, keeps, sa, sb, _) =>
    .ok ⟨(bb84_draws rngf simf n).1.1, (bb84_draws rngf simf n).1.2.1,
      (bb84_draws rngf simf n).1.2.2, bobs, keeps,
      if sa.length = 0 then none
      else some (mkRat (countMismatch sa sb) sa.length)⟩

/-- The seeded walkthrough entry point. -/
def bb84_walkthrough (n : Nat) (p_eve p_noise : ℚ) (seed : Nat) :
    Except String WalkResult :=
  bb84_walkthrough_core (lcgStream seed) (lcgStream seed) n p_eve p_noise

/-- The sifted Alice bits an observer reconstructs from a walkthrough
record: the `alice_bits` entries at positions flagged `keep = 1`. -/
def walkSiftAlice (w : WalkResult) : List Nat :=
  ((w.alice_bits.zip w.keep).filter (fun p => decide (p.2 = 1))).map
    (fun p => p.1)

/-- The sifted Bob bits an observer reconstructs from a walkthrough
record: the `bob_bits` entries at positions flagged `keep = 1`. -/
def walkSiftBob (w : WalkResult) : List Nat :=
  ((w.bob_bits.zip w.keep).filter (fun p => decide (p.2 = 1))).map
    (fun p => p.1)

/-- `bits_to_key_bytes(bits)` (`src/crypto_utils.py` lines 13-22),
inner packing: consume whole groups of 8 bits, each folded MSB-first by
`byte = (byte << 1) | int(b)`; a trailing group shorter than 8 bits is
never produced because the caller truncates first. -/
def packBytes : List Nat → List Nat
  | b0 :: b1 :: b2 :: b3 :: b4 :: b5 :: b6 :: b7 :: rest =>
    ([b0, b1, b2, b3, b4, b5, b6, b7].foldl
      (fun byte b => (byte <<< 1) ||| b) 0) :: packBytes rest
  | _ => []

/-- `bits_to_key_bytes(bits)` (`src/crypto_utils.py` lines 13-22):
truncate to the largest prefix with length a multiple of 8, pack it,
and fall back to the single zero byte when no whole byte is available. -/
def bits_to_key_bytes (bits : List Nat) : List Nat :=
  let L := bits.length - bits.length % 8
  let byts := packBytes (bits.take L)
  if byts = [] then [0] else byts

/-- The value of one 8-bit group as the specification states it: the
first bit of the group is the most-significant bit of the byte. -/
def specByteVal (b0 b1 b2 b3 b4 b5 b6 b7 : Nat) : Nat :=
  128 * b0 + 64 * b1 + 32 * b2 + 16 * b3 + 8 * b4 + 4 * b5 + 2 * b6 + b7

/-- Spec-side packing, written from the specification's words rather
than the source, for the refinement claim about `bits_to_key_bytes`:
group the bits 8 at a time and give each group its MSB-first value. -/
def specGroups : List Nat → List Nat
  | b0 :: b1 :: b2 :: b3 :: b4 :: b5 :: b6 :: b7 :: rest =>
    specByteVal b0 b1 b2 b3 b4 b5 b6 b7 :: specGroups rest
  | _ => []

/-- Spec-side key-byte derivation: take the largest multiple-of-8
prefix, pack it MSB-first, return the single zero byte if that prefix
is empty. -/
def specKeyBytes (bits : List Nat) : List Nat :=
  let pre := bits.take (8 * (bits.length / 8))
  if pre.length = 0 then [0] else specGroups pre

/-- `xor_bytes(data, key)` (`src/crypto_utils.py` lines 31-41): the
empty key is a no-op; otherwise byte `i` of the output is
`data[i] XOR key[i mod len(key)]`. -/
def xor_bytes (data key : List Nat) : List Nat :=
  if key = [] then data
  else (List.range data.length).map
    (fun i => data.getD i 0 ^^^ key.getD (i % key.length) 0)

/-- `json_encrypt_xor(obj, key_bytes)` (`src/crypto_utils.py` lines
43-45) with the serialised payload abstracted to its byte string:
stream-mode encryption of the serialised form. -/
def json_encrypt_xor (data key_bytes : List Nat) : List Nat :=
  xor_bytes data key_bytes

/-- Counter-mode keystream application: byte `i` of the output is byte
`i` of the input XORed with keystream byte `i`.  This is the semantics
of one `update` call of the external CTR cipher object, with the
keystream (the encrypted counter blocks derived from key and nonce)
abstracted as a function of the byte position. -/
def ctrApply (ks : Nat → Nat) (data : List Nat) : List Nat :=
  (List.range data.length).map (fun i => data.getD i 0 ^^^ ks i)

/-- `aes_ctr_encrypt(plaintext, key32)` (`src/crypto_utils.py` lines
51-57): raise when the AES capability is unavailable, otherwise emit
`nonce || ciphertext`.  The library cipher is abstracted by the
keystream family `ks key nonce`; the `finalize()` of the second,
freshly created encryptor contributes the empty string, as CTR
finalisation does. -/
def aes_ctr_encrypt (avail : Bool)
    (ks : List Nat → List Nat → Nat → Nat) (nonce : List Nat)
    (plaintext key32 : List Nat) : Except String (List Nat) :=
  if avail = false then .error "AES not available"
  else .ok (nonce ++ (ctrApply (ks key32 nonce) plaintext ++ []))

/-- `aes_ctr_decrypt(blob, key32)` (`src/crypto_utils.py` lines 59-65):
raise when AES is unavailable, otherwise split the first 16 bytes as
the nonce, the rest as ciphertext, and apply the keystream again. -/
def aes_ctr_decrypt (avail : Bool)
    (ks : List Nat → List Nat → Nat → Nat) (blob key32 : List Nat) :
    Except String (List Nat) :=
  if avail = false then .error "AES not available"
  else
    let nonce := blob.take 16
    let ct := blob.drop 16
    .ok (ctrApply (ks key32 nonce) ct ++ [])

/-- The seed list one heatmap cell consumes: `seed + idx + k` for
`k < avg` (`src/bb84.py` line 110). -/
def cellSeedList (seed idx avg : Nat) : List Nat :=
  (List.range avg).map (fun k => seed + idx + k)

/-- The seed bookkeeping of `run_qber_heatmap` (`src/bb84.py` lines
105-113): the nested row-major loop visits `pn_steps * pe_steps` cells,
each consuming `avg` consecutive seeds starting at `seed + idx`, and
advances `idx` by the fixed stride `17` after every cell. -/
def heatmapCells (seed avg : Nat) : Nat → Nat → List (List Nat)
  | _, 0 => []
  | idx, m + 1 => cellSeedList seed idx avg :: heatmapCells seed avg (idx + 17) m

/-- The per-cell seed schedule of `run_qber_heatmap(n, ..., pe_steps,
..., pn_steps, seed, avg)`: cell `(i, j)` of the grid is entry
`i * pe_steps + j` of this list. -/
def heatmap_seeds (seed pe_steps pn_steps avg : Nat) : List (List Nat) :=
  heatmapCells seed avg 0 (pn_steps * pe_steps)

/-- Decidable equality of embedded fallible results, so that concrete
runs of the engine can be checked by evaluation. -/
instance {ε α : Type} [DecidableEq ε] [DecidableEq α] :
    DecidableEq (Except ε α) := fun a b =>
  match a, b with
  | .error e1, .error e2 =>
    if h : e1 = e2 then isTrue (by rw [h])
    else isFalse (fun hc => by injection hc; exact h (by assumption))
  | .ok v1, .ok v2 =>
    if h : v1 = v2 then isTrue (by rw [h])
    else isFalse (fun hc => by injection hc; exact h (by assumption))
  | .error _, .ok _ => isFalse (fun hc => Except.noConfusion hc)
  | .ok _, .error _ => isFalse (fun hc => Except.noConfusion hc)

end QuantumDuo

namespace QuantumDuo

lemma length_xor_bytes (d k : List Nat) : (xor_bytes d k).length = d.length := by
  unfold xor_bytes
  split <;> simp

lemma getD_xor_bytes (d k : List Nat) (hk : ¬ k = []) (i : Nat)
    (hi : i < d.length) :
    (xor_bytes d k).getD i 0 = d.getD i 0 ^^^ k.getD (i % k.length) 0 := by
  unfold xor_bytes
  rw [if_neg hk, List.getD_eq_getElem _ 0 (by simpa using hi)]
  simp [List.getElem_map, List.getElem_range]

lemma map_getD_range (d : List Nat) :
    (List.range d.length).map (fun i => d.getD i 0) = d := by
  apply List.ext_getElem
  · simp
  · intro i h1 h2
    simp [List.getElem?_eq_getElem h2]

lemma xor_bytes_involutive (p k : List Nat) :
    xor_bytes (xor_bytes p k) k = p := by
  by_cases hk : k = []
  · subst hk
    simp [xor_bytes]
  · apply List.ext_getElem
    · rw [length_xor_bytes, length_xor_bytes]
    · intro i h1 h2
      rw [← List.getD_eq_getElem _ 0 h1, ← List.getD_eq_getElem _ 0 h2,
        getD_xor_bytes _ _ hk i (by rwa [length_xor_bytes] at h1),
        getD_xor_bytes _ _ hk i h2, Nat.xor_cancel_right]

end QuantumDuo

namespace QuantumDuo

lemma shiftOr (x b : Nat) (hb : b < 2) : (x <<< 1) ||| b = 2 * x + b := by
  have hx : x <<< 1 = Nat.bit false x := by
    simp [Nat.shiftLeft_eq, Nat.bit, Nat.mul_comm]
  interval_cases b
  · rw [hx]
    have h1 : (0 : ℕ) = Nat.bit false 0 := rfl
    rw [h1, Nat.lor_bit]
    simp [Nat.bit_val]
  · rw [hx]
    have h1 : (1 : ℕ) = Nat.bit true 0 := rfl
    rw [h1, Nat.lor_bit]
    simp [Nat.bit_val]

lemma pack8 (b0 b1 b2 b3 b4 b5 b6 b7 : Nat) (h0 : b0 < 2) (h1 : b1 < 2)
    (h2 : b2 < 2) (h3 : b3 < 2) (h4 : b4 < 2) (h5 : b5 < 2) (h6 : b6 < 2)
    (h7 : b7 < 2) :
    [b0, b1, b2, b3, b4, b5, b6, b7].foldl
      (fun byte b => (byte <<< 1) ||| b) 0 =
    specByteVal b0 b1 b2 b3 b4 b5 b6 b7 := by
  simp only [List.foldl]
  rw [shiftOr _ _ h0, shiftOr _ _ h1, shiftOr _ _ h2, shiftOr _ _ h3,
    shiftOr _ _ h4, shiftOr _ _ h5, shiftOr _ _ h6, shiftOr _ _ h7]
  unfold specByteVal
  ring

lemma packBytes_eq_specGroups :
    ∀ bits : List Nat, (∀ b ∈ bits, b < 2) → packBytes bits = specGroups bits
  | b0 :: b1 :: b2 :: b3 :: b4 :: b5 :: b6 :: b7 :: rest, h => by
    rw [packBytes, specGroups,
      packBytes_eq_specGroups rest (fun b hb => h b (by simp [hb]))]
    rw [pack8 b0 b1 b2 b3 b4 b5 b6 b7 (h b0 (by simp)) (h b1 (by simp))
      (h b2 (by simp)) (h b3 (by simp)) (h b4 (by simp)) (h b5 (by simp))
      (h b6 (by simp)) (h b7 (by simp))]
  | [], _ => rfl
  | [b0], _ => rfl
  | [b0, b1], _ => rfl
  | [b0, b1, b2], _ => rfl
  | [b0, b1, b2, b3], _ => rfl
  | [b0, b1, b2, b3, b4], _ => rfl
  | [b0, b1, b2, b3, b4, b5], _ => rfl
  | [b0, b1, b2, b3, b4, b5, b6], _ => rfl

lemma specGroups_length :
    ∀ bits : List Nat, (specGroups bits).length = bits.length / 8
  | b0 :: b1 :: b2 :: b3 :: b4 :: b5 :: b6 :: b7 :: rest => by
    rw [specGroups]
    simp only [List.length_cons, specGroups_length rest]
    omega
  | [] => by simp [specGroups]
  | [b0] => by simp [specGroups]
  | [b0, b1] => by simp [specGroups]
  | [b0, b1, b2] => by simp [specGroups]
  | [b0, b1, b2, b3] => by simp [specGroups]
  | [b0, b1, b2, b3, b4] => by simp [specGroups]
  | [b0, b1, b2, b3, b4, b5] => by simp [specGroups]
  | [b0, b1, b2, b3, b4, b5, b6] => by simp [specGroups]

end QuantumDuo

namespace QuantumDuo

lemma bits_to_key_bytes_eq_spec (bits : List Nat) (h : ∀ b ∈ bits, b < 2) :
    bits_to_key_bytes bits = specKeyBytes bits := by
  have hL : bits.length - bits.length % 8 = 8 * (bits.length / 8) := by omega
  have hpre : ∀ b ∈ bits.take (8 * (bits.length / 8)), b < 2 :=
    fun b hb => h b (List.take_subset _ _ hb)
  have hlen : (bits.take (8 * (bits.length / 8))).length =
      8 * (bits.length / 8) := by
    rw [List.length_take]
    omega
  simp only [bits_to_key_bytes, specKeyBytes, hL,
    packBytes_eq_specGroups _ hpre]
  by_cases hz : bits.length / 8 = 0
  · have h1 : (bits.take (8 * (bits.length / 8))).length = 0 := by omega
    have h2 : specGroups (bits.take (8 * (bits.length / 8))) = [] := by
      rw [List.eq_nil_of_length_eq_zero h1]
      rfl
    rw [if_pos h2, if_pos h1]
  · have h1 : ¬ (bits.take (8 * (bits.length / 8))).length = 0 := by omega
    have h2 : ¬ specGroups (bits.take (8 * (bits.length / 8))) = [] := by
      intro hc
      have := specGroups_length (bits.take (8 * (bits.length / 8)))
      rw [hc] at this
      simp only [List.length_nil] at this
      omega
    rw [if_neg h2, if_neg h1]

lemma length_ctrApply (ks : Nat → Nat) (d : List Nat) :
    (ctrApply ks d).length = d.length := by
  unfold ctrApply
  simp

lemma getD_ctrApply (ks : Nat → Nat) (d : List Nat) (i : Nat)
    (hi : i < d.length) :
    (ctrApply ks d).getD i 0 = d.getD i 0 ^^^ ks i := by
  unfold ctrApply
  rw [List.getD_eq_getElem _ 0 (by simpa using hi)]
  simp [List.getElem_map, List.getElem_range]

lemma ctrApply_involutive (ks : Nat → Nat) (d : List Nat) :
    ctrApply ks (ctrApply ks d) = d := by
  apply List.ext_getElem
  · rw [length_ctrApply, length_ctrApply]
  · intro i h1 h2
    rw [← List.getD_eq_getElem _ 0 h1, ← List.getD_eq_getElem _ 0 h2,
      getD_ctrApply _ _ i (by rwa [length_ctrApply] at h1),
      getD_ctrApply _ _ i h2, Nat.xor_cancel_right]

lemma heatmapCells_getD (seed avg : Nat) :
    ∀ (m idx c : Nat), c < m →
      (heatmapCells seed avg idx m).getD c [] =
        cellSeedList seed (idx + 17 * c) avg := by
  intro m
  induction m with
  | zero => intro idx c hc; omega
  | succ m ih =>
    intro idx c hc
    cases c with
    | zero => simp [heatmapCells]
    | succ c =>
      rw [heatmapCells]
      simp only [List.getD_cons_succ]
      rw [ih (idx + 17) c (by omega)]
      congr 1
      omega

lemma mem_cellSeedList {x seed idx avg : Nat} :
    x ∈ cellSeedList seed idx avg ↔ seed + idx ≤ x ∧ x < seed + idx + avg := by
  unfold cellSeedList
  simp only [List.mem_map, List.mem_range]
  constructor
  · rintro ⟨k, hk, rfl⟩
    omega
  · rintro ⟨h1, h2⟩
    exact ⟨x - (seed + idx), by omega, by omega⟩

end QuantumDuo

namespace QuantumDuo

/-- C5: for every plaintext byte string and every key (including the
empty key), stream-mode XOR encryption is its own inverse, the empty
key acts as the identity, and for a non-empty key byte `i` of the
ciphertext is `p[i] XOR k[i mod |k|]`. -/
theorem xor_bytes_roundtrip (p k : List Nat) :
    xor_bytes (xor_bytes p k) k = p ∧ xor_bytes p [] = p ∧
    (k ≠ [] → ∀ i, i < p.length →
      (xor_bytes p k).getD i 0 = p.getD i 0 ^^^ k.getD (i % k.length) 0) :=
  ⟨xor_bytes_involutive p k, by simp [xor_bytes],
    fun hk i hi => getD_xor_bytes p k hk i hi⟩

theorem xor_bytes_roundtrip_witness :
    xor_bytes (xor_bytes [10, 20, 255] [3, 5]) [3, 5] = [10, 20, 255] ∧
    xor_bytes [10, 20, 255] [] = [10, 20, 255] ∧
    (xor_bytes [10, 20, 255] [3, 5]).getD 1 0 =
      [10, 20, 255].getD 1 0 ^^^ [3, 5].getD (1 % 2) 0 :=
  ⟨(xor_bytes_roundtrip [10, 20, 255] [3, 5]).1,
    (xor_bytes_roundtrip [10, 20, 255] [3, 5]).2.1,
    (xor_bytes_roundtrip [10, 20, 255] [3, 5]).2.2 (by decide) 1 (by decide)⟩

/-- C6: `bits_to_key_bytes` packs the largest multiple-of-8 prefix of
the bit list into bytes, 8 bits per byte with the first bit of each
group as the most-significant bit, and returns the single zero byte
when that prefix is empty. -/
theorem bits_to_key_bytes_correct (bits : List Nat)
    (h : ∀ b ∈ bits, b < 2) :
    bits_to_key_bytes bits = specKeyBytes bits :=
  bits_to_key_bytes_eq_spec bits h

theorem bits_to_key_bytes_correct_witness :
    bits_to_key_bytes [1, 0, 0, 0, 0, 0, 1, 1, 1, 0] =
      specKeyBytes [1, 0, 0, 0, 0, 0, 1, 1, 1, 0] ∧
    specKeyBytes [1, 0, 0, 0, 0, 0, 1, 1, 1, 0] = [131] ∧
    bits_to_key_bytes [1, 0, 1] = specKeyBytes [1, 0, 1] ∧
    specKeyBytes [1, 0, 1] = [0] :=
  ⟨bits_to_key_bytes_correct [1, 0, 0, 0, 0, 0, 1, 1, 1, 0] (by decide),
    by decide,
    bits_to_key_bytes_correct [1, 0, 1] (by decide),
    by decide⟩

/-- C7: when the AES capability is available, `aes_ctr_encrypt` emits a
blob of length `16 + |plaintext|` consisting of the 16-byte nonce
followed by a ciphertext of the plaintext's length, and
`aes_ctr_decrypt` under the same key restores the plaintext exactly. -/
theorem aes_ctr_roundtrip (avail : Bool)
    (ks : List Nat → List Nat → Nat → Nat)
    (nonce pt key32 blob : List Nat) (ha : avail = true)
    (hn : nonce.length = 16)
    (he : aes_ctr_encrypt avail ks nonce pt key32 = .ok blob) :
    blob.length = 16 + pt.length ∧ blob.take 16 = nonce ∧
    (blob.drop 16).length = pt.length ∧
    aes_ctr_decrypt avail ks blob key32 = .ok pt := by
  subst ha
  unfold aes_ctr_encrypt at he
  simp only [Bool.true_eq_false, if_false, List.append_nil,
    Except.ok.injEq] at he
  subst he
  have htake : (nonce ++ ctrApply (ks key32 nonce) pt).take 16 = nonce := by
    rw [← hn, List.take_left]
  have hdrop : (nonce ++ ctrApply (ks key32 nonce) pt).drop 16 =
      ctrApply (ks key32 nonce) pt := by
    rw [← hn, List.drop_left]
  refine ⟨?_, htake, ?_, ?_⟩
  · rw [List.length_append, hn, length_ctrApply]
  · rw [hdrop, length_ctrApply]
  · unfold aes_ctr_decrypt
    simp only [Bool.true_eq_false, if_false, htake, hdrop,
      ctrApply_involutive, List.append_nil]

theorem aes_ctr_roundtrip_witness :
    (List.replicate 16 0 ++
        ctrApply ((fun _ _ i => i) ([] : List Nat)
          (List.replicate 16 0)) [5, 6]).length = 16 + 2 ∧
    aes_ctr_decrypt true (fun _ _ i => i)
      (List.replicate 16 0 ++
        ctrApply ((fun _ _ i => i) ([] : List Nat)
          (List.replicate 16 0)) [5, 6]) [] = .ok [5, 6] := by
  have h := aes_ctr_roundtrip true (fun _ _ i => i)
    (List.replicate 16 0) [5, 6] []
    (List.replicate 16 0 ++
      ctrApply ((fun _ _ i => i) ([] : List Nat)
        (List.replicate 16 0)) [5, 6])
    rfl (by decide) (by rfl)
  exact ⟨h.1, h.2.2.2⟩

/-- C10: the single-zero-byte degenerate key makes stream-mode XOR the
identity: `xor_bytes(d, [0]) = d` for every byte string, and whenever
fewer than 8 sifted bits are available `bits_to_key_bytes` yields that
degenerate key, so the emitted ciphertext equals the serialised
plaintext byte for byte. -/
theorem zero_byte_key_noop (d bits : List Nat) (hb : bits.length < 8) :
    xor_bytes d [0] = d ∧ bits_to_key_bytes bits = [0] ∧
    json_encrypt_xor d (bits_to_key_bytes bits) = d := by
  have hid : xor_bytes d [0] = d := by
    unfold xor_bytes
    rw [if_neg (by simp)]
    have : ∀ i : Nat, d.getD i 0 ^^^ [0].getD (i % [0].length) 0 =
        d.getD i 0 := by
      intro i
      simp
    simp only [this]
    exact map_getD_range d
  have hkey : bits_to_key_bytes bits = [0] := by
    unfold bits_to_key_bytes
    have h0 : bits.length - bits.length % 8 = 0 := by omega
    rw [h0]
    simp [packBytes]
  refine ⟨hid, hkey, ?_⟩
  rw [hkey]
  exact hid

theorem zero_byte_key_noop_witness :
    xor_bytes [65, 0, 200] [0] = [65, 0, 200] ∧
    bits_to_key_bytes [1, 1, 0] = [0] ∧
    json_encrypt_xor [65, 0, 200] (bits_to_key_bytes [1, 1, 0]) =
      [65, 0, 200] :=
  zero_byte_key_noop [65, 0, 200] [1, 1, 0] (by decide)

end QuantumDuo

namespace QuantumDuo

/-- C9 counterexample: with `avg = 18` (larger than the fixed stride of
17) on a 1×2 grid, cell 0 and cell 1 of `run_qber_heatmap` both run a
session with seed 17 — the per-cell seed sets are not disjoint. -/
theorem heatmap_seed_collision :
    17 ∈ (heatmap_seeds 0 2 1 18).getD 0 [] ∧
    17 ∈ (heatmap_seeds 0 2 1 18).getD 1 [] := by
  decide

/-- C9 amended: the seed sets consumed by distinct heatmap cells are
pairwise disjoint provided the averaging count does not exceed the
fixed per-cell stride of 17 (`avg ≤ 17`); the stride alone does not
guarantee disjointness for larger `avg`. -/
theorem heatmap_seeds_disjoint (seed pe_steps pn_steps avg c1 c2 x : Nat)
    (havg : avg ≤ 17) (h1 : c1 < pn_steps * pe_steps)
    (h2 : c2 < pn_steps * pe_steps) (hne : c1 ≠ c2)
    (hx : x ∈ (heatmap_seeds seed pe_steps pn_steps avg).getD c1 []) :
    x ∉ (heatmap_seeds seed pe_steps pn_steps avg).getD c2 [] := by
  unfold heatmap_seeds at hx ⊢
  rw [heatmapCells_getD seed avg _ _ _ h1, mem_cellSeedList] at hx
  rw [heatmapCells_getD seed avg _ _ _ h2, mem_cellSeedList]
  intro hx2
  omega

theorem heatmap_seeds_disjoint_witness :
    ¬ 0 ∈ (heatmap_seeds 0 2 1 17).getD 1 [] :=
  heatmap_seeds_disjoint 0 2 1 17 0 1 0 (by decide) (by decide) (by decide)
    (by decide) (by decide)

end QuantumDuo

namespace QuantumDuo

lemma mkRat_natCast_div (m k : Nat) :
    mkRat (m : Int) k = (m : ℚ) / (k : ℚ) := by
  rw [Rat.mkRat_eq_divInt, Rat.divInt_eq_div]
  simp

lemma unitOf_nonneg (v : Nat) : 0 ≤ unitOf v := by
  unfold unitOf
  rw [mkRat_natCast_div]
  positivity

lemma not_unitOf_lt_zero (v : Nat) : ¬ unitOf v < 0 :=
  not_lt.mpr (unitOf_nonneg v)

lemma drawBasis_valid (s : PrngPair) :
    (drawBasis s).1 = "Z" ∨ (drawBasis s).1 = "X" := by
  unfold drawBasis rngDraw
  by_cases h : s.rng s.rpos % 2 = 0 <;> simp [h]

lemma drawBases_valid :
    ∀ (n : Nat) (s : PrngPair) (b : String),
      b ∈ (drawBases n s).1 → b = "Z" ∨ b = "X" := by
  intro n
  induction n with
  | zero =>
    intro s b hb
    simp [drawBases] at hb
  | succ n ih =>
    intro s b hb
    rw [drawBases] at hb
    simp only [List.mem_cons] at hb
    rcases hb with hb | hb
    · subst hb
      exact drawBasis_valid s
    · exact ih _ b hb

lemma drawBits_length : ∀ (n : Nat) (s : PrngPair),
    (drawBits n s).1.length = n := by
  intro n
  induction n with
  | zero => intro s; rfl
  | succ n ih => intro s; rw [drawBits]; simp [ih]

lemma drawBases_length : ∀ (n : Nat) (s : PrngPair),
    (drawBases n s).1.length = n := by
  intro n
  induction n with
  | zero => intro s; rfl
  | succ n ih => intro s; rw [drawBases]; simp [ih]

lemma countMismatch_self (a : List Nat) : countMismatch a a = 0 := by
  induction a with
  | nil => rfl
  | cons x xs ih => simpa [countMismatch, List.zip_cons_cons] using ih

lemma prepare_state_Z (bit : Nat) :
    prepare_state bit "Z" = .ok ⟨bit, QBasis.Z⟩ := by
  unfold prepare_state
  rw [if_pos rfl]

lemma prepare_state_X (bit : Nat) :
    prepare_state bit "X" = .ok ⟨bit, QBasis.X⟩ := by
  unfold prepare_state
  rw [if_neg (by decide), if_pos rfl]

lemma eveStep_ok (p_eve : ℚ) (qc0 : Carrier) (r1 : ℚ) (s1 : PrngPair) :
    ∃ qc1 s2, eveStep p_eve qc0 r1 s1 = .ok (qc1, s2) := by
  unfold eveStep
  by_cases h : r1 < p_eve
  · rw [if_pos h]
    simp only [drawBasis, rngDraw]
    by_cases h2 : s1.rng s1.rpos % 2 = 0
    · rw [if_pos h2]
      rw [prepare_state_Z]
      exact ⟨_, _, rfl⟩
    · rw [if_neg h2]
      rw [prepare_state_X]
      exact ⟨_, _, rfl⟩
  · rw [if_neg h]
    exact ⟨_, _, rfl⟩

lemma eveStep_zero (qc0 : Carrier) (v : Nat) (s1 : PrngPair) :
    eveStep 0 qc0 (unitOf v) s1 = .ok (qc0, s1) := by
  unfold eveStep
  rw [if_neg (not_unitOf_lt_zero v)]

lemma noiseStep_zero (qc1 : Carrier) (s2 : PrngPair) :
    noiseStep 0 qc1 s2 = (qc1, s2) := by
  unfold noiseStep
  rw [if_neg (lt_irrefl 0)]

lemma transStep_ok (p_eve p_noise : ℚ) (ab : Nat) (aB bB : String)
    (s : PrngPair) (hv : aB = "Z" ∨ aB = "X") :
    ∃ bobBit s4, transStep p_eve p_noise ab aB bB s = .ok (bobBit, s4) := by
  obtain ⟨c, hc⟩ : ∃ c, prepare_state ab aB = .ok c := by
    rcases hv with h | h <;> subst h
    · exact ⟨_, prepare_state_Z ab⟩
    · exact ⟨_, prepare_state_X ab⟩
  unfold transStep
  rw [hc]
  simp only [drawUnit, rngDraw]
  obtain ⟨qc1, s2, he⟩ := eveStep_ok p_eve c (unitOf (s.rng s.rpos))
    { s with rpos := s.rpos + 1 }
  rw [he]
  rcases hn : noiseStep p_noise qc1 s2 with ⟨qc2, s3⟩
  exact ⟨_, _, rfl⟩

/-- With no eavesdropper and no noise, a transmission whose bases match
returns Alice's bit exactly. -/
lemma transStep_clean (ab : Nat) (aB : String) (s : PrngPair)
    (hv : aB = "Z" ∨ aB = "X") :
    ∃ s4, transStep 0 0 ab aB aB s = .ok (ab, s4) := by
  rcases hv with h | h <;> subst h
  · unfold transStep
    rw [prepare_state_Z]
    simp only [drawUnit, rngDraw]
    rw [eveStep_zero]
    simp only [noiseStep_zero, measure_in_basis, simDraw]
    rw [if_neg (by decide), if_neg (by decide)]
    exact ⟨_, rfl⟩
  · unfold transStep
    rw [prepare_state_X]
    simp only [drawUnit, rngDraw]
    rw [eveStep_zero]
    simp only [noiseStep_zero, measure_in_basis, simDraw]
    simp only [if_true]
    exact ⟨_, rfl⟩

end QuantumDuo

namespace QuantumDuo

lemma siftLoop_clean :
    ∀ (l : List (Nat × String × String)) (s : PrngPair),
      (∀ t ∈ l, t.2.1 = "Z" ∨ t.2.1 = "X") →
      ∃ sa s5, siftLoop 0 0 l s = .ok (sa, sa, s5) := by
  intro l
  induction l with
  | nil =>
    intro s _
    exact ⟨[], s, rfl⟩
  | cons t rest ih =>
    obtain ⟨ab, aB, bB⟩ := t
    intro s hv
    have hvA : aB = "Z" ∨ aB = "X" := by
      simpa using hv (ab, aB, bB) (by simp)
    have hvR : ∀ t ∈ rest, t.2.1 = "Z" ∨ t.2.1 = "X" :=
      fun t htl => hv t (by simp [htl])
    by_cases hb : aB = bB
    · subst hb
      obtain ⟨s4, ht⟩ := transStep_clean ab aB s hvA
      obtain ⟨sa, s5, hr⟩ := ih s4 hvR
      rw [siftLoop]
      simp only [ht, hr, if_true]
      exact ⟨ab :: sa, s5, rfl⟩
    · obtain ⟨bobBit, s4, ht⟩ := transStep_ok 0 0 ab aB bB s hvA
      obtain ⟨sa, s5, hr⟩ := ih s4 hvR
      rw [siftLoop]
      simp only [ht, hr]
      rw [if_neg hb]
      exact ⟨sa, s5, rfl⟩

lemma siftLoop_ok (p_eve p_noise : ℚ) :
    ∀ (l : List (Nat × String × String)) (s : PrngPair),
      (∀ t ∈ l, t.2.1 = "Z" ∨ t.2.1 = "X") →
      ∃ sa sb s5, siftLoop p_eve p_noise l s = .ok (sa, sb, s5) := by
  intro l
  induction l with
  | nil =>
    intro s _
    exact ⟨[], [], s, rfl⟩
  | cons t rest ih =>
    obtain ⟨ab, aB, bB⟩ := t
    intro s hv
    have hvA : aB = "Z" ∨ aB = "X" := by
      simpa using hv (ab, aB, bB) (by simp)
    obtain ⟨bobBit, s4, ht⟩ := transStep_ok p_eve p_noise ab aB bB s hvA
    obtain ⟨sa, sb, s5, hr⟩ := ih s4 (fun t htl => hv t (by simp [htl]))
    rw [siftLoop]
    simp only [ht, hr]
    by_cases hb : aB = bB
    · subst hb
      simp only [if_true]
      exact ⟨ab :: sa, bobBit :: sb, s5, rfl⟩
    · rw [if_neg hb]
      exact ⟨sa, sb, s5, rfl⟩

end QuantumDuo

namespace QuantumDuo

/-- The sifting loop is the walkthrough loop with the per-transmission
records forgotten: both consume the random streams identically. -/
lemma siftLoop_eq_walkLoop (p_eve p_noise : ℚ) :
    ∀ (l : List (Nat × String × String)) (s : PrngPair),
      siftLoop p_eve p_noise l s =
        match walkLoop p_eve p_noise l s with
        | .error e => .error e
        | .ok (_, _, sa, sb, s5) => .ok (sa, sb, s5) := by
  intro l
  induction l with
  | nil =>
    intro s
    rfl
  | cons t rest ih =>
    obtain ⟨ab, aB, bB⟩ := t
    intro s
    rw [siftLoop, walkLoop]
    cases ht : transStep p_eve p_noise ab aB bB s with
    | error e => rfl
    | ok out =>
      obtain ⟨bobBit, s4⟩ := out
      simp only [ih s4]
      cases hw : walkLoop p_eve p_noise rest s4 with
      | error e => rfl
      | ok tup =>
        obtain ⟨bobs, keeps, sa, sb, s5⟩ := tup
        by_cases hb : aB = bB
        · subst hb
          simp
        · simp [hb]

end QuantumDuo

namespace QuantumDuo

/-- The sifted lists a walkthrough computes internally are recoverable
from the per-transmission records: filter the Alice bits (resp. the Bob
bits) by the keep flags. -/
lemma walkLoop_reconstruct (p_eve p_noise : ℚ) :
    ∀ (l : List (Nat × String × String)) (s : PrngPair)
      (bobs keeps sa sb : List Nat) (s5 : PrngPair),
      walkLoop p_eve p_noise l s = .ok (bobs, keeps, sa, sb, s5) →
      (((l.map (fun t => t.1)).zip keeps).filter
          (fun p => decide (p.2 = 1))).map (fun p => p.1) = sa ∧
      ((bobs.zip keeps).filter
          (fun p => decide (p.2 = 1))).map (fun p => p.1) = sb := by
  intro l
  induction l with
  | nil =>
    intro s bobs keeps sa sb s5 h
    simp only [walkLoop, Except.ok.injEq, Prod.mk.injEq] at h
    obtain ⟨h1, h2, h3, h4, h5⟩ := h
    subst h1
    subst h2
    subst h3
    subst h4
    simp
  | cons t rest ih =>
    obtain ⟨ab, aB, bB⟩ := t
    intro s bobs keeps sa sb s5 h
    rw [walkLoop] at h
    cases ht : transStep p_eve p_noise ab aB bB s with
    | error e =>
      rw [ht] at h
      exact absurd h (by simp)
    | ok out =>
      obtain ⟨bobBit, s4⟩ := out
      rw [ht] at h
      cases hw : walkLoop p_eve p_noise rest s4 with
      | error e =>
        simp [hw] at h
      | ok tup =>
        obtain ⟨bobs2, keeps2, sa2, sb2, s52⟩ := tup
        simp only [hw] at h
        obtain ⟨hA, hB⟩ := ih s4 bobs2 keeps2 sa2 sb2 s52 hw
        by_cases hb : aB = bB
        · rw [if_pos hb] at h
          simp only [Except.ok.injEq, Prod.mk.injEq] at h
          obtain ⟨h1, h2, h3, h4, h5⟩ := h
          subst h1
          subst h2
          subst h3
          subst h4
          refine ⟨?_, ?_⟩
          · simp only [List.map_cons, List.zip_cons_cons, List.filter_cons]
            simp [hA]
          · simp only [List.zip_cons_cons, List.filter_cons]
            simp [hB]
        · rw [if_neg hb] at h
          simp only [Except.ok.injEq, Prod.mk.injEq] at h
          obtain ⟨h1, h2, h3, h4, h5⟩ := h
          subst h1
          subst h2
          subst h3
          subst h4
          refine ⟨?_, ?_⟩
          · simp only [List.map_cons, List.zip_cons_cons, List.filter_cons]
            simp [hA]
          · simp only [List.zip_cons_cons, List.filter_cons]
            simp [hB]

end QuantumDuo

namespace QuantumDuo

lemma bb84_triples_valid (rngf simf : Nat → Nat) (n : Nat) :
    ∀ t ∈ bb84_triples rngf simf n, t.2.1 = "Z" ∨ t.2.1 = "X" := by
  intro t ht
  obtain ⟨ab, aB, bB⟩ := t
  have h2 := (List.of_mem_zip ht).2
  have h3 := (List.of_mem_zip h2).1
  exact drawBases_valid n _ aB h3

lemma bb84_core_of_siftLoop (rngf simf : Nat → Nat) (n : Nat)
    (pe pn : ℚ) (sa sb : List Nat) (s5 : PrngPair)
    (hs : siftLoop pe pn (bb84_triples rngf simf n)
      (bb84_draws rngf simf n).2 = .ok (sa, sb, s5)) :
    bb84_core rngf simf n pe pn = .ok (mkSessionResult sa sb) := by
  unfold bb84_core bb84_sift
  rw [hs]

lemma bb84_sift_inv (rngf simf : Nat → Nat) (n : Nat) (pe pn : ℚ)
    (sa sb : List Nat)
    (h : bb84_sift rngf simf n pe pn = .ok (sa, sb)) :
    ∃ s5, siftLoop pe pn (bb84_triples rngf simf n)
      (bb84_draws rngf simf n).2 = .ok (sa, sb, s5) := by
  unfold bb84_sift at h
  cases hl : siftLoop pe pn (bb84_triples rngf simf n)
      (bb84_draws rngf simf n).2 with
  | error e =>
    rw [hl] at h
    have h2 : (Except.error e : Except String (List Nat × List Nat)) =
        .ok (sa, sb) := h
    exact absurd h2 (by simp)
  | ok tup =>
    obtain ⟨sa2, sb2, s5⟩ := tup
    rw [hl] at h
    have h2 : (Except.ok (sa2, sb2) : Except String (List Nat × List Nat)) =
        .ok (sa, sb) := h
    injection h2 with h3
    injection h3 with ha hb
    subst ha
    subst hb
    exact ⟨s5, rfl⟩

lemma bb84_core_inv (rngf simf : Nat → Nat) (n : Nat) (pe pn : ℚ)
    (r : SessionResult)
    (h : bb84_core rngf simf n pe pn = .ok r) :
    ∃ sa sb s5, siftLoop pe pn (bb84_triples rngf simf n)
      (bb84_draws rngf simf n).2 = .ok (sa, sb, s5) ∧
      r = mkSessionResult sa sb := by
  unfold bb84_core bb84_sift at h
  cases hl : siftLoop pe pn (bb84_triples rngf simf n)
      (bb84_draws rngf simf n).2 with
  | error e =>
    rw [hl] at h
    have h2 : (Except.error e : Except String SessionResult) = .ok r := h
    exact absurd h2 (by simp)
  | ok tup =>
    obtain ⟨sa, sb, s5⟩ := tup
    rw [hl] at h
    have h2 : (Except.ok (mkSessionResult sa sb) :
        Except String SessionResult) = .ok r := h
    injection h2 with h3
    exact ⟨sa, sb, s5, rfl, h3.symm⟩

lemma bb84_walkthrough_inv (rngf simf : Nat → Nat) (n : Nat)
    (pe pn : ℚ) (w : WalkResult)
    (h : bb84_walkthrough_core rngf simf n pe pn = .ok w) :
    ∃ bobs keeps sa sb s5,
      walkLoop pe pn (bb84_triples rngf simf n)
        (bb84_draws rngf simf n).2 = .ok (bobs, keeps, sa, sb, s5) ∧
      w = ⟨(bb84_draws rngf simf n).1.1, (bb84_draws rngf simf n).1.2.1,
        (bb84_draws rngf simf n).1.2.2, bobs, keeps,
        if sa.length = 0 then none
        else some (mkRat (countMismatch sa sb) sa.length)⟩ := by
  unfold bb84_walkthrough_core at h
  cases hl : walkLoop pe pn (bb84_triples rngf simf n)
      (bb84_draws rngf simf n).2 with
  | error e =>
    rw [hl] at h
    have h2 : (Except.error e : Except String WalkResult) = .ok w := h
    exact absurd h2 (by simp)
  | ok tup =>
    obtain ⟨bobs, keeps, sa, sb, s5⟩ := tup
    rw [hl] at h
    have h2 : (Except.ok (⟨(bb84_draws rngf simf n).1.1,
        (bb84_draws rngf simf n).1.2.1, (bb84_draws rngf simf n).1.2.2,
        bobs, keeps,
        if sa.length = 0 then none
        else some (mkRat (countMismatch sa sb) sa.length)⟩ : WalkResult) :
        Except String WalkResult) = .ok w := h
    injection h2 with h3
    exact ⟨bobs, keeps, sa, sb, s5, rfl, h3.symm⟩

/-- C1: with `p_eve = 0` and `p_noise = 0` every sifted Bob bit equals
the corresponding Alice bit, so any session with a positive kept count
reports a QBER of exactly zero, whatever the entropy streams (hence for
every transmission count and every seed). -/
theorem bb84_no_attack_no_noise_qber_zero (rngf simf : Nat → Nat)
    (n : Nat) (r : SessionResult)
    (h : bb84_core rngf simf n 0 0 = .ok r) (hk : 0 < r.kept) :
    r.qber = some 0 := by
  obtain ⟨sa, s5, hs⟩ := siftLoop_clean (bb84_triples rngf simf n)
    (bb84_draws rngf simf n).2 (bb84_triples_valid rngf simf n)
  rw [bb84_core_of_siftLoop rngf simf n 0 0 sa sa s5 hs] at h
  injection h with h
  subst h
  unfold mkSessionResult at hk ⊢
  by_cases h0 : sa.length = 0
  · rw [if_pos h0] at hk
    simp at hk
  · rw [if_neg h0]
    simp [countMismatch_self, Nat.cast_zero, Rat.zero_mkRat]

theorem bb84_no_attack_no_noise_qber_zero_witness :
    SessionResult.qber ⟨some 0, [0], 1⟩ = some 0 :=
  bb84_no_attack_no_noise_qber_zero (fun _ => 0) (fun _ => 0) 1
    ⟨some 0, [0], 1⟩ (by decide) (by decide)

/-- C2: the session engine is a pure function of
`(n, p_eve, p_noise, seed)` — two invocations with the same argument
tuple return the same QBER, the same ordered sifted key bits and the
same kept count. -/
theorem bb84_single_deterministic (n : Nat) (p_eve p_noise : ℚ)
    (seed : Nat) (r1 r2 : SessionResult)
    (h1 : bb84_single n p_eve p_noise seed = .ok r1)
    (h2 : bb84_single n p_eve p_noise seed = .ok r2) :
    r1.qber = r2.qber ∧ r1.key_bits = r2.key_bits ∧ r1.kept = r2.kept := by
  rw [h1] at h2
  injection h2 with h
  subst h
  exact ⟨rfl, rfl, rfl⟩

theorem bb84_single_deterministic_witness :
    SessionResult.qber ⟨some 0, [1, 0], 2⟩ =
      SessionResult.qber ⟨some 0, [1, 0], 2⟩ ∧
    SessionResult.key_bits ⟨some 0, [1, 0], 2⟩ =
      SessionResult.key_bits ⟨some 0, [1, 0], 2⟩ ∧
    SessionResult.kept ⟨some 0, [1, 0], 2⟩ =
      SessionResult.kept ⟨some 0, [1, 0], 2⟩ :=
  bb84_single_deterministic 2 0 0 0 ⟨some 0, [1, 0], 2⟩
    ⟨some 0, [1, 0], 2⟩ (by decide) (by decide)

/-- C3: the session result reports `qber = none` exactly when the kept
count is zero, and for a positive kept count the QBER is exactly the
fraction of sifted positions where Alice's and Bob's bits differ —
never the sentinel `0` for an empty sift. -/
theorem bb84_qber_none_iff_kept_zero (rngf simf : Nat → Nat) (n : Nat)
    (p_eve p_noise : ℚ) (sa sb : List Nat) (r : SessionResult)
    (hs : bb84_sift rngf simf n p_eve p_noise = .ok (sa, sb))
    (hr : bb84_core rngf simf n p_eve p_noise = .ok r) :
    (r.qber = none ↔ r.kept = 0) ∧
    (0 < r.kept →
      r.qber = some ((countMismatch sa sb : ℚ) / (r.kept : ℚ))) := by
  obtain ⟨s5, hl⟩ := bb84_sift_inv rngf simf n p_eve p_noise sa sb hs
  rw [bb84_core_of_siftLoop rngf simf n p_eve p_noise sa sb s5 hl] at hr
  injection hr with h
  subst h
  unfold mkSessionResult
  by_cases h0 : sa.length = 0
  · rw [if_pos h0]
    refine ⟨by simp [h0], ?_⟩
    intro hk
    simp at hk
  · rw [if_neg h0]
    refine ⟨by simp [h0], ?_⟩
    intro hk
    simp only [mkRat_natCast_div]

theorem bb84_qber_none_iff_kept_zero_witness :
    ((SessionResult.qber ⟨some 0, [0], 1⟩ = none) ↔
      (SessionResult.kept ⟨some 0, [0], 1⟩ = 0)) ∧
    (0 < SessionResult.kept ⟨some 0, [0], 1⟩ →
      SessionResult.qber ⟨some 0, [0], 1⟩ =
        some ((countMismatch [0] [0] : ℚ) /
          (SessionResult.kept ⟨some 0, [0], 1⟩ : ℚ))) :=
  bb84_qber_none_iff_kept_zero (fun _ => 0) (fun _ => 0) 1 0 0 [0] [0]
    ⟨some 0, [0], 1⟩ (by decide) (by decide)

end QuantumDuo

namespace QuantumDuo

/-- C4: for the same parameters and entropy streams (hence the same
seed), the walkthrough mode agrees with the plain session: same QBER
(including its absent-vs-numeric status), same sifted Alice bits (which
are the session's key bits) and same sifted Bob bits, the sifted
sequences being read off the retained per-transmission records by
filtering with the keep flags. -/
theorem bb84_walkthrough_refines_single (rngf simf : Nat → Nat)
    (n : Nat) (p_eve p_noise : ℚ) (w : WalkResult) (r : SessionResult)
    (sa sb : List Nat)
    (hw : bb84_walkthrough_core rngf simf n p_eve p_noise = .ok w)
    (hr : bb84_core rngf simf n p_eve p_noise = .ok r)
    (hs : bb84_sift rngf simf n p_eve p_noise = .ok (sa, sb)) :
    w.qber = r.qber ∧ walkSiftAlice w = sa ∧ walkSiftBob w = sb ∧
    r.key_bits = sa ∧ r.kept = sa.length := by
  obtain ⟨s5, hl⟩ := bb84_sift_inv rngf simf n p_eve p_noise sa sb hs
  obtain ⟨bobs, keeps, sa2, sb2, s52, hwl, hwdef⟩ :=
    bb84_walkthrough_inv rngf simf n p_eve p_noise w hw
  have hls : siftLoop p_eve p_noise (bb84_triples rngf simf n)
      (bb84_draws rngf simf n).2 = .ok (sa2, sb2, s52) := by
    rw [siftLoop_eq_walkLoop, hwl]
  rw [hl] at hls
  injection hls with h
  injection h with ha h
  injection h with hb hss
  subst ha
  subst hb
  rw [bb84_core_of_siftLoop rngf simf n p_eve p_noise sa sb s5 hl] at hr
  injection hr with hr
  subst hr
  obtain ⟨hA, hB⟩ := walkLoop_reconstruct p_eve p_noise _ _ _ _ _ _ _ hwl
  have hmap : (bb84_triples rngf simf n).map (fun t => t.1) =
      (bb84_draws rngf simf n).1.1 := by
    have l1 : (bb84_draws rngf simf n).1.1.length = n := drawBits_length n _
    have l2 : (bb84_draws rngf simf n).1.2.1.length = n :=
      drawBases_length n _
    have l3 : (bb84_draws rngf simf n).1.2.2.length = n :=
      drawBases_length n _
    unfold bb84_triples
    apply List.map_fst_zip
    rw [List.length_zip, l1, l2, l3]
    omega
  subst hwdef
  refine ⟨?_, ?_, ?_, ?_, ?_⟩
  · unfold mkSessionResult
    by_cases h0 : sa.length = 0
    · simp [h0]
    · simp [h0]
  · unfold walkSiftAlice
    rw [hmap] at hA
    exact hA
  · unfold walkSiftBob
    exact hB
  · unfold mkSessionResult
    by_cases h0 : sa.length = 0
    · have hsa : sa = [] := List.length_eq_zero.mp h0
      simp [h0, hsa]
    · simp [h0]
  · unfold mkSessionResult
    by_cases h0 : sa.length = 0
    · simp [h0]
    · simp [h0]

theorem bb84_walkthrough_refines_single_witness :
    WalkResult.qber ⟨[0], ["Z"], ["Z"], [0], [1], some 0⟩ =
      SessionResult.qber ⟨some 0, [0], 1⟩ ∧
    walkSiftAlice ⟨[0], ["Z"], ["Z"], [0], [1], some 0⟩ = [0] ∧
    walkSiftBob ⟨[0], ["Z"], ["Z"], [0], [1], some 0⟩ = [0] ∧
    SessionResult.key_bits ⟨some 0, [0], 1⟩ = [0] ∧
    SessionResult.kept ⟨some 0, [0], 1⟩ = [0].length :=
  bb84_walkthrough_refines_single (fun _ => 0) (fun _ => 0) 1 0 0
    ⟨[0], ["Z"], ["Z"], [0], [1], some 0⟩ ⟨some 0, [0], 1⟩ [0] [0]
    (by decide) (by decide) (by decide)

/-- C8 counterexample: the session engine performs no fail-fast
validation — called with the invalid configuration `n = 0` (a
non-positive transmission count), `p_eve = 3/2 > 1` and
`p_noise = -1 < 0`, it does not reject the call but completes normally
with a degenerate session result. -/
theorem bb84_accepts_invalid_config :
    (1 : ℚ) < 3 / 2 ∧ (-1 : ℚ) < 0 ∧
    bb84_single 0 (3 / 2) (-1) 5 = .ok ⟨none, [], 0⟩ := by
  refine ⟨by norm_num, by norm_num, by decide⟩

/-- C8 amended: only `_prepare_state` rejects anything, namely an
unknown basis label; the session engine itself validates nothing — for
every probability pair (in range or not) it returns a normal result,
and `n = 0` yields the degenerate empty session rather than a
rejection. -/
theorem bb84_no_fail_fast (bit : Nat) (basis : String)
    (rngf simf : Nat → Nat) (n : Nat) (p_eve p_noise : ℚ)
    (h1 : basis ≠ "Z") (h2 : basis ≠ "X") :
    prepare_state bit basis = .error "basis must be Z or X" ∧
    (∃ r, bb84_core rngf simf n p_eve p_noise = .ok r) ∧
    bb84_core rngf simf 0 p_eve p_noise = .ok ⟨none, [], 0⟩ := by
  refine ⟨?_, ?_, ?_⟩
  · unfold prepare_state
    rw [if_neg h1, if_neg h2]
  · obtain ⟨sa, sb, s5, hsl⟩ := siftLoop_ok p_eve p_noise
      (bb84_triples rngf simf n) (bb84_draws rngf simf n).2
      (bb84_triples_valid rngf simf n)
    exact ⟨_, bb84_core_of_siftLoop rngf simf n p_eve p_noise sa sb s5 hsl⟩
  · rfl

theorem bb84_no_fail_fast_witness :
    prepare_state 0 "W" = .error "basis must be Z or X" ∧
    (∃ r, bb84_core (fun _ => 0) (fun _ => 0) 1 0 0 = .ok r) ∧
    bb84_core (fun _ => 0) (fun _ => 0) 0 0 0 = .ok ⟨none, [], 0⟩ :=
  bb84_no_fail_fast 0 "W" (fun _ => 0) (fun _ => 0) 1 0 0 (by decide)
    (by decide)

end QuantumDuo
